import Mathlib

/-!
Shallow embedding of the SHARE change-request engine:
`share/models/core.py` (content-addressed raw-data store, patch engine,
change-request state machine with dependency resolution) and
`share/models/relations/agentwork.py` (`ThroughContributor` validation).

Records are flat, field-keyed dictionaries (a Python `dict` of the model's
editable column values); a patch is an ordered list of JSON-patch style
operations.  The external `jsonpatch` library is modelled as it behaves on
such flat, single-level objects.
-/

namespace Share

/-- JSON-like values stored in record fields and patch operations. -/
inductive Val where
  | vnull
  | vnat (n : Nat)
  | vstr (s : String)
  | vbool (b : Bool)
deriving DecidableEq, Repr

/-- A single JSON-patch operation, a dict `{'op': …, 'path': …, 'value': …}`.
`remove` operations carry a dummy `vnull` value (the real dict has no
`value` member; nothing ever reads it). -/
structure Op where
  op : String
  path : String
  value : Val
deriving DecidableEq, Repr

/-- A record: an ordered, flat field-to-value dictionary, modelling
`{field.column: field.value_from_object(x) for field in x._meta.fields
if field.editable}`.  Keys are unique in every record built by the code;
theorems carry that as a `keysNodup` hypothesis. -/
abbrev Record := List (String × Val)

/-- Lookup of a field in a record (first occurrence). -/
def getKey : Record → String → Option Val
  | [], _ => none
  | (k', v) :: r, k => if k' = k then some v else getKey r k

/-- Does the record have the field? -/
def hasKey (r : Record) (k : String) : Bool :=
  (getKey r k).isSome

/-- Set a field of a record, in place if present, appended otherwise
(Python dict assignment). -/
def setKey : Record → String → Val → Record
  | [], k, v => [(k, v)]
  | (k', v') :: r, k, v =>
      if k' = k then (k, v) :: r else (k', v') :: setKey r k v

/-- Delete a field of a record (Python `del d[k]`, first occurrence). -/
def removeKey : Record → String → Record
  | [], _ => []
  | (k', v') :: r, k => if k' = k then r else (k', v') :: removeKey r k

/-- The record's keys are pairwise distinct (true of every Python dict). -/
def keysNodup (r : Record) : Prop :=
  (r.map Prod.fst).Nodup

instance (r : Record) : Decidable (keysNodup r) := by
  unfold keysNodup; infer_instance

/-- Parse a JSON-pointer path of a flat object: `"/k"` addresses field `k`. -/
def pathKey (p : String) : Option String :=
  match p.data with
  | '/' :: rest => some ⟨rest⟩
  | _ => none

/-- The `remove` half of the diff: a field of `clean` absent from
`dirty` is removed. -/
def diffRemove (dirty : Record) (kv : String × Val) : Option Op :=
  if hasKey dirty kv.1 then none
  else some ⟨"remove", "/" ++ kv.1, Val.vnull⟩

/-- The `add`/`replace` half of the diff: a field of `dirty` absent from
`clean` is added, one whose value changed is replaced. -/
def diffAddReplace (clean : Record) (kv : String × Val) : Option Op :=
  match getKey clean kv.1 with
  | none => some ⟨"add", "/" ++ kv.1, kv.2⟩
  | some v0 => if v0 = kv.2 then none else some ⟨"replace", "/" ++ kv.1, kv.2⟩

/-- Model of `jsonpatch.make_patch(clean, dirty)` on flat objects:
`remove` each field of `clean` absent from `dirty`, then walking `dirty`
`add` each field absent from `clean` and `replace` each field whose value
changed.  `clean? = none` models `clean and clean._meta.fields or []`,
i.e. diffing against the empty dict. -/
def make_patch (clean? : Option Record) (dirty : Record) : List Op :=
  ((clean?.getD []).filterMap (diffRemove dirty))
    ++ dirty.filterMap (diffAddReplace (clean?.getD []))

/-- Model of applying one JSON-patch operation to a flat object:
`add` upserts; `replace` and `remove` require the path to exist
(`JsonPatchConflict` otherwise); any other op name or unparsable path is
an error.  `none` models a raised `JsonPatchException`. -/
def applyOp (r : Record) (o : Op) : Option Record :=
  match pathKey o.path with
  | none => none
  | some k =>
    if o.op = "add" then some (setKey r k o.value)
    else if o.op = "replace" then
      if hasKey r k then some (setKey r k o.value) else none
    else if o.op = "remove" then
      if hasKey r k then some (removeKey r k) else none
    else none

/-- Model of `jsonpatch.apply_patch(target, ops)`: the operations applied
in order, the first failure aborting the whole application. -/
def apply_patch (r : Record) (ops : List Op) : Option Record :=
  ops.foldlM applyOp r

def opEffect (o : Op) : Option Val :=
  if o.op = "remove" then none else some o.value

/-- The value carried by the first operation at path `p` (what
`next(c for c in changes if c['path'] == p)` reads). -/
def firstOpValue (cs : List Op) (p : String) : Option Val :=
  (cs.find? fun o => o.path = p).map Op.value

inductive ChangeStatus where
  | pending
  | accepted
  | rejected
deriving DecidableEq, Repr

/-- A persisted `ChangeRequest` row.  `objectId`/`versionId` model the
generic foreign keys `target`/`version` (`object_id`, `version_id`);
`typeFields` models `content_type` as the editable column list of the
target model class (enough to instantiate `content_type.model_class()()`). -/
structure CRec where
  id : Nat
  status : ChangeStatus
  changes : List Op
  objectId : Option Nat
  versionId : Option Nat
  typeFields : List String
deriving DecidableEq, Repr

/-- A persisted `ChangeRequirement` row: dependent request `change`,
prerequisite request `requirement`, and the patched field / version-field
column names. -/
structure CReq where
  change : Nat
  requirement : Nat
  field : String
  versionField : String
deriving DecidableEq, Repr

/-- A committed entity (a persisted `ShareObject`).
Modelled from the spec: `share/models/base.py` (the `ShareObject` base
class) is not among the sources; per the spec an entity is the committed,
versioned record, `versionId` its current version, `changeId` the
ChangeRequest that produced it. -/
structure Entity where
  id : Nat
  fields : Record
  versionId : Nat
  changeId : Nat
deriving DecidableEq, Repr

/-- A committed entity version (a persisted `ShareObjectVersion`).
Modelled from the spec: "Every successful commit produces exactly one new
EntityVersion, linked back to the ChangeRequest that produced it." -/
structure EVersion where
  id : Nat
  entityId : Nat
  fields : Record
deriving DecidableEq, Repr

/-- The persisted state: the relevant database tables plus fresh-id
counters for entities and entity versions. -/
structure DB where
  requests : List CRec
  requirements : List CReq
  entities : List Entity
  versions : List EVersion
  nextEntityId : Nat
  nextVersionId : Nat
deriving DecidableEq, Repr

/-- Look a `ChangeRequest` up by id. -/
def findReq (db : DB) (rid : Nat) : Option CRec :=
  db.requests.find? fun q => q.id = rid

/-- Look an `Entity` up by id. -/
def findEntity (db : DB) (eid : Nat) : Option Entity :=
  db.entities.find? fun e => e.id = eid

/-- `self.depends_on`: the `ChangeRequirement` rows whose dependent is
this request, in table order. -/
def dependsOn (db : DB) (rid : Nat) : List CReq :=
  db.requirements.filter fun q => q.change = rid

/-- The prerequisite request of a `ChangeRequirement` (`req.requirement`). -/
def prereqOf (db : DB) (d : CReq) : Option CRec :=
  findReq db d.requirement

/-- Is a requirement's prerequisite persisted with status `ACCEPTED`?
(the `depends_on.exclude(requirement__status='A')` test, per row). -/
def prereqAccepted (db : DB) (d : CReq) : Bool :=
  match prereqOf db d with
  | some p => p.status = ChangeStatus.accepted
  | none => false

/-- A nullable foreign-key id as the JSON value Python would place in the
patch (`req.requirement.object_id` is `None` until the prerequisite is
committed). -/
def optIdVal : Option Nat → Val
  | none => Val.vnull
  | some n => Val.vnat n

/-- Errors raised out of `accept` and its helpers.  The two `assert`s
raise what the spec names `InvalidStateError` and
`UnsatisfiedDependencyError`; `missingFieldOp` is the `StopIteration`
escaping `next(...)` in `create_object`; `patchError` is a
`jsonpatch` application failure; `notFound` a `DoesNotExist`. -/
inductive AcceptError where
  | invalidState
  | unsatisfiedDependency
  | missingFieldOp
  | patchError
  | notFound
deriving DecidableEq, Repr

/-- `ChangeRequest.reject`: `self.status = ChangeStatus.REJECTED.value`,
with no precondition of any kind. -/
def reject (r : CRec) : CRec :=
  { r with status := ChangeStatus.rejected }

/-- `next(c for c in self.changes if c['path'] == p)['value'] = v`:
set the value of the first operation whose path is `p`; `none` models the
raised `StopIteration` when no operation matches. -/
def setFirstValue : List Op → String → Val → Option (List Op)
  | [], _, _ => none
  | o :: os, p, v =>
      if o.path = p then some ({ o with value := v } :: os)
      else (setFirstValue os p v).map (o :: ·)

/-- The operation appended for a requirement:
`{'op': 'replace', 'path': '/' + req.version_field, 'value': req.requirement.version_id}`. -/
def versionOp (d : CReq) (p : CRec) : Op :=
  ⟨"replace", "/" ++ d.versionField, optIdVal p.versionId⟩

/-- One iteration of `create_object`'s requirement loop: rewrite the
first operation at path `'/' + req.field` to the prerequisite's
`object_id`, then append the requirement's version operation. -/
def rewriteStep (db : DB) (changes : List Op) (d : CReq) : Option (List Op) := do
  let p ← prereqOf db d
  let cs ← setFirstValue changes ("/" ++ d.field) (optIdVal p.objectId)
  pure (cs ++ [versionOp d p])

/-- The whole requirement loop of `create_object`, requirement rows in
order, each step seeing the list as already rewritten by earlier steps. -/
def rewritePatch (db : DB) (changes : List Op) : List CReq → Option (List Op)
  | [] => some changes
  | d :: ds => rewriteStep db changes d >>= fun cs => rewritePatch db cs ds

/-- `content_type.model_class()()`: a freshly instantiated blank record of
the target type — every column present, initialised to `None`. -/
def blankRecord (fields : List String) : Record :=
  fields.map fun f => (f, Val.vnull)

/-- `ChangeRequest.create_object` (the creation path of `accept`; `r` is
the in-memory row, status already set by `accept`).  Rewrites the patch
through the requirement loop, applies it to a blank instance, then
persists: `inst.save()` commits the entity and its first version
(modelled from the spec, `base.py` being absent: a save of a new
`ShareObject` assigns a fresh id and creates its first `EntityVersion`),
`self.target = inst`, `self.version = inst.versions.first()`,
`self.save()`.  Every failure happens before any save, so the error
branches leave the database untouched. -/
def create_object (db : DB) (r : CRec) : DB × Except AcceptError Nat :=
  match rewritePatch db r.changes (dependsOn db r.id) with
  | none => (db, Except.error AcceptError.missingFieldOp)
  | some cs =>
    match apply_patch (blankRecord r.typeFields) cs with
    | none => (db, Except.error AcceptError.patchError)
    | some inst =>
      let e : Entity := ⟨db.nextEntityId, inst, db.nextVersionId, r.id⟩
      let v : EVersion := ⟨db.nextVersionId, db.nextEntityId, inst⟩
      let r' : CRec := { r with
        changes := cs
        objectId := some db.nextEntityId
        versionId := some db.nextVersionId }
      ({ db with
          entities := db.entities ++ [e]
          versions := db.versions ++ [v]
          nextEntityId := db.nextEntityId + 1
          nextVersionId := db.nextVersionId + 1
          requests := db.requests.map fun q => if q.id = r.id then r' else q },
        Except.ok db.nextEntityId)

/-- `ChangeRequest.apply_change` (the update path of `accept`):
`jsonpatch.apply_patch(self.target.__dict__, self.changes, in_place=True)`,
`self.target.save()` (modelled from the spec: saving an existing entity
updates its fields and creates one new `EntityVersion`), `self.save()`.
The request's own `version` field is not touched here. -/
def apply_change (db : DB) (r : CRec) : DB × Except AcceptError Nat :=
  match r.objectId with
  | none => (db, Except.error AcceptError.notFound)
  | some tid =>
    match findEntity db tid with
    | none => (db, Except.error AcceptError.notFound)
    | some e =>
      match apply_patch e.fields r.changes with
      | none => (db, Except.error AcceptError.patchError)
      | some rec =>
        let e' : Entity := { e with fields := rec, versionId := db.nextVersionId }
        let v : EVersion := ⟨db.nextVersionId, e.id, rec⟩
        ({ db with
            entities := db.entities.map fun q => if q.id = e.id then e' else q
            versions := db.versions ++ [v]
            nextVersionId := db.nextVersionId + 1
            requests := db.requests.map fun q => if q.id = r.id then r else q },
          Except.ok e.id)

/-- `ChangeRequest.accept(force=False)`:
`assert force or self.status == PENDING` (InvalidStateError),
`assert self.depends_on.exclude(requirement__status='A').count() == 0`
(UnsatisfiedDependencyError), `self.status = ACCEPTED`, then
`self.apply_change()` if `self.target` else `self.create_object()`.
The returned `DB` is the persisted state: error paths never reach a
save, so they return the input state. -/
def accept (db : DB) (rid : Nat) (force : Bool) : DB × Except AcceptError Nat :=
  match findReq db rid with
  | none => (db, Except.error AcceptError.notFound)
  | some r =>
    if ¬(force ∨ r.status = ChangeStatus.pending) then
      (db, Except.error AcceptError.invalidState)
    else if ¬(dependsOn db rid).all (prereqAccepted db) then
      (db, Except.error AcceptError.unsatisfiedDependency)
    else
      match r.objectId with
      | some _ => apply_change db { r with status := ChangeStatus.accepted }
      | none => create_object db { r with status := ChangeStatus.accepted }

/-- The attribute tuple of the unsaved `ChangeRequest` instance built by
`ChangeRequestManager.update_object` (a Django instance with `pk = None`:
the constructor call persists nothing). -/
structure NewCRec where
  status : ChangeStatus
  changes : List Op
  objectId : Option Nat
  versionId : Option Nat
deriving DecidableEq, Repr

/-- `ChangeRequestManager.update_object(updated, submitter)`:
`assert updated.pk`, `clean = updated.__class__.objects.get(pk=updated.pk)`,
`changes = make_patch(clean, updated)`, and `return ChangeRequest(target=clean,
version=clean.version, changes=changes.patch, status=PENDING.value, …)` —
the row is constructed and returned but never saved, so the database
comes back unchanged. -/
def update_object (db : DB) (updatedId : Nat) (updatedFields : Record) :
    Option (DB × NewCRec) :=
  match findEntity db updatedId with
  | none => none
  | some clean =>
    some (db,
      { status := ChangeStatus.pending
        changes := make_patch (some clean.fields) updatedFields
        objectId := some clean.id
        versionId := some clean.versionId })

def sha256hex (data : String) : String := data

/-- A persisted `RawData` row.  `dateSeen` is the `auto_now` field
`date_seen`, `dateHarvested` the `auto_now_add` field `date_harvested`. -/
structure RawDoc where
  id : Nat
  source : Nat
  providerDocId : String
  sha : String
  data : String
  dateSeen : Nat
  dateHarvested : Nat
deriving DecidableEq, Repr

/-- The raw-data side of the database: the `RawData` table, the
`NormalizationQueue` table (one-to-one rows keyed by `RawData` id), and a
fresh-id counter. -/
structure RawState where
  rows : List RawDoc
  queue : List Nat
  nextId : Nat
deriving DecidableEq, Repr

/-- Does a `RawData` row match the `get_or_create` lookup triple? -/
def rawMatches (source : Nat) (docId sha : String) (r : RawDoc) : Bool :=
  r.source = source ∧ r.providerDocId = docId ∧ r.sha = sha

/-- `RawDataManager.store_data(doc_id, data, source)` at wall-clock time
`now`: `get_or_create(source=…, provider_doc_id=…, sha256=…, defaults={'data': data})`;
when created, `NormalizationQueue(data=rd).save()`; finally `rd.save()`
("Force timestamps to update", the `auto_now` column).  Returns the new
state and the returned row's id. -/
def store_data (st : RawState) (now : Nat) (docId : String) (data : String)
    (source : Nat) : RawState × Nat :=
  match st.rows.find? (rawMatches source docId (sha256hex data)) with
  | some r =>
    ({ st with
        rows := st.rows.map fun q =>
          if q.id = r.id then { q with dateSeen := now } else q },
      r.id)
  | none =>
    ({ st with
        rows := st.rows ++ [⟨st.nextId, source, docId, sha256hex data, data, now, now⟩]
        queue := st.queue ++ [st.nextId]
        nextId := st.nextId + 1 },
      st.nextId)

structure AgentWorkRelation where
  id : Nat
  creativeWork : Nat
  agent : Nat
deriving DecidableEq, Repr

/-- A `ThroughContributor` draft: its `subject` and `related`
agent-work relations. -/
structure ThroughContributor where
  subject : AgentWorkRelation
  related : AgentWorkRelation
deriving DecidableEq, Repr

/-- `ThroughContributor.clean`: raise `ValidationError` when the two
endpoints contribute to different creative works, then when an agent
would contribute through itself. -/
def tcClean (t : ThroughContributor) : Except String Unit :=
  if t.subject.creativeWork ≠ t.related.creativeWork then
    Except.error "ThroughContributors must contribute to the same AbstractCreativeWork"
  else if t.subject.agent = t.related.agent then
    Except.error "A contributor may not contribute through itself"
  else Except.ok ()

/-- `ThroughContributor.save`: `self.clean()` then `super().save()`.
The super call is modelled from the spec (`base.py` is absent): a
successful save persists the row, so the store grows by exactly this row;
a `ValidationError` propagates before anything is written. -/
def tcSave (t : ThroughContributor) (store : List ThroughContributor) :
    Except String (List ThroughContributor) :=
  match tcClean t with
  | Except.error e => Except.error e
  | Except.ok _ => Except.ok (store ++ [t])

/-- Does the operation parse to a field of the given column list? -/
def opKeyIn (fields : List String) (o : Op) : Bool :=
  match pathKey o.path with
  | some k => k ∈ fields
  | none => false

def exReqW : CRec := ⟨1, ChangeStatus.accepted, [], some 10, some 20, ["name"]⟩

/-- The dependent creation request `R` referencing `W` via `work_id`. -/
def exReqR : CRec :=
  ⟨2, ChangeStatus.pending,
    [⟨"add", "/name", Val.vstr "R"⟩, ⟨"add", "/work_id", Val.vnull⟩],
    none, none, ["name", "work_id", "work_version_id"]⟩

/-- Scenario 2's database: `W` accepted, `R` pending with one requirement. -/
def exDB : DB :=
  ⟨[exReqW, exReqR], [⟨2, 1, "work_id", "work_version_id"⟩], [], [], 100, 200⟩

/-- `R` with its `work_id` operation missing from the patch. -/
def exReqRmiss : CRec :=
  ⟨2, ChangeStatus.pending, [⟨"add", "/name", Val.vstr "R"⟩],
    none, none, ["name", "work_id", "work_version_id"]⟩

/-- Like `exDB` but the dependent's patch lacks the `work_id` operation. -/
def exDBmiss : DB :=
  ⟨[exReqW, exReqRmiss], [⟨2, 1, "work_id", "work_version_id"⟩], [], [], 100, 200⟩

/-- Both requests still pending: `R`'s prerequisite is unmet. -/
def exDBpending : DB :=
  ⟨[⟨1, ChangeStatus.pending, [], none, none, ["name"]⟩, exReqR],
    [⟨2, 1, "work_id", "work_version_id"⟩], [], [], 100, 200⟩

/-- Request 2 already accepted while its prerequisite is still pending. -/
def exDBdone : DB :=
  ⟨[⟨1, ChangeStatus.pending, [], none, none, ["name"]⟩,
    ⟨2, ChangeStatus.accepted, [], none, none, []⟩],
    [⟨2, 1, "work_id", "work_version_id"⟩], [], [], 100, 200⟩

/-- An accepted request, for exercising `reject` on a terminal state. -/
def exAcceptedReq : CRec := ⟨7, ChangeStatus.accepted, [], none, none, []⟩

/-- A committed entity for the update path (Scenario 3). -/
def exEntity : Entity := ⟨1, [("name", Val.vstr "x"), ("uri", Val.vstr "u")], 5, 0⟩

/-- A database holding only `exEntity`. -/
def exDBupd : DB := ⟨[], [], [exEntity], [], 2, 6⟩

/-- Sample records for the patch round trip. -/
def exRecA : Record := [("name", Val.vstr "x"), ("age", Val.vnat 1)]

/-- Sample target record for the patch round trip. -/
def exRecB : Record := [("name", Val.vstr "y"), ("size", Val.vnat 2)]

/-- The empty content store. -/
def exRaw : RawState := ⟨[], [], 0⟩

/-- Agent-work relations for the `ThroughContributor` scenarios. -/
def exAwrA : AgentWorkRelation := ⟨1, 5, 8⟩

/-- Same creative work as `exAwrA`, different agent. -/
def exAwrB : AgentWorkRelation := ⟨2, 5, 9⟩

/-- Different creative work from `exAwrA`. -/
def exAwrC : AgentWorkRelation := ⟨3, 6, 8⟩

/-! ## Theorems -/

example : pathKey "/name" = some "name" := by decide

example : getKey (setKey [("a", .vnat 1)] "b" (.vnat 2)) "b" = some (.vnat 2) := by decide

example :
    make_patch (some [("name", .vstr "x"), ("age", .vnat 3)])
      [("name", .vstr "y"), ("age", .vnat 3)]
      = [⟨"replace", "/name", .vstr "y"⟩] := by decide

example :
    apply_patch [("name", .vstr "x")] [⟨"replace", "/name", .vstr "y"⟩]
      = some [("name", .vstr "y")] := by decide

/-! ## Record lemmas -/

theorem getKey_setKey_self (r : Record) (k : String) (v : Val) :
    getKey (setKey r k v) k = some v := by
  induction r with
  | nil => simp [setKey, getKey]
  | cons kv r ih =>
    obtain ⟨k', v'⟩ := kv
    by_cases h : k' = k
    · simp [setKey, h, getKey]
    · simp [setKey, h, getKey, ih]

theorem getKey_setKey_ne (r : Record) {k k' : String} (v : Val) (h : k' ≠ k) :
    getKey (setKey r k v) k' = getKey r k' := by
  induction r with
  | nil => simp [setKey, getKey, Ne.symm h]
  | cons kv r ih =>
    obtain ⟨k'', v''⟩ := kv
    by_cases h2 : k'' = k
    · subst h2
      simp [setKey, getKey, Ne.symm h]
    · by_cases h3 : k'' = k'
      · subst h3
        simp [setKey, h2, getKey]
      · simp [setKey, h2, getKey, h3, ih]

theorem getKey_eq_some_mem {r : Record} {k : String} {v : Val}
    (h : getKey r k = some v) : (k, v) ∈ r := by
  induction r with
  | nil => simp [getKey] at h
  | cons kv r ih =>
    obtain ⟨k', v'⟩ := kv
    by_cases h2 : k' = k
    · subst h2
      simp [getKey] at h
      simp [h]
    · simp [getKey, h2] at h
      exact List.mem_cons_of_mem _ (ih h)

theorem getKey_of_mem_nodup {r : Record} {k : String} {v : Val}
    (hn : keysNodup r) (h : (k, v) ∈ r) : getKey r k = some v := by
  induction r with
  | nil => simp at h
  | cons kv r ih =>
    obtain ⟨k', v'⟩ := kv
    simp only [keysNodup, List.map_cons, List.nodup_cons] at hn
    rcases List.mem_cons.mp h with h1 | h1
    · simp only [Prod.mk.injEq] at h1
      obtain ⟨hk, hv⟩ := h1
      subst hk; subst hv
      simp [getKey]
    · have hne : k' ≠ k := by
        intro he
        exact hn.1 (he ▸ (List.mem_map.mpr ⟨(k, v), h1, rfl⟩))
      simp [getKey, hne, ih hn.2 h1]

theorem getKey_eq_none_iff {r : Record} {k : String} :
    getKey r k = none ↔ k ∉ r.map Prod.fst := by
  induction r with
  | nil => simp [getKey]
  | cons kv r ih =>
    obtain ⟨k', v'⟩ := kv
    by_cases h : k' = k
    · simp [getKey, h]
    · simp [getKey, h, ih, Ne.symm h]

theorem hasKey_iff_mem {r : Record} {k : String} :
    hasKey r k = true ↔ k ∈ r.map Prod.fst := by
  simp only [hasKey, Option.isSome_iff_exists]
  constructor
  · rintro ⟨v, hv⟩
    exact List.mem_map.mpr ⟨(k, v), getKey_eq_some_mem hv, rfl⟩
  · intro hm
    cases h : getKey r k with
    | none => exact absurd (getKey_eq_none_iff.mp h) (by simpa using hm)
    | some v => exact ⟨v, rfl⟩

theorem mem_keys_setKey {r : Record} {k k' : String} {v : Val} :
    k' ∈ (setKey r k v).map Prod.fst ↔ k' = k ∨ k' ∈ r.map Prod.fst := by
  induction r with
  | nil => simp [setKey]
  | cons kv r ih =>
    obtain ⟨k'', v''⟩ := kv
    by_cases h : k'' = k
    · subst h
      simp [setKey]
    · simp only [setKey, if_neg h, List.map_cons, List.mem_cons, ih]
      tauto

theorem keysNodup_setKey {r : Record} (k : String) (v : Val)
    (h : keysNodup r) : keysNodup (setKey r k v) := by
  induction r with
  | nil => simp [setKey, keysNodup]
  | cons kv r ih =>
    obtain ⟨k', v'⟩ := kv
    simp only [keysNodup, List.map_cons, List.nodup_cons] at h
    by_cases h2 : k' = k
    · subst h2
      simpa [setKey, keysNodup] using h
    · have he : setKey ((k', v') :: r) k v = (k', v') :: setKey r k v := by
        simp [setKey, h2]
      rw [keysNodup, he, List.map_cons, List.nodup_cons]
      refine ⟨?_, ih h.2⟩
      intro hmem
      rcases mem_keys_setKey.mp hmem with h3 | h3
      · exact h2 h3
      · exact h.1 h3

theorem removeKey_sublist (r : Record) (k : String) :
    (removeKey r k).Sublist r := by
  induction r with
  | nil => simp [removeKey]
  | cons kv r ih =>
    obtain ⟨k', v'⟩ := kv
    by_cases h : k' = k
    · rw [removeKey, if_pos h]
      exact List.sublist_cons_self (k', v') r
    · rw [removeKey, if_neg h]
      exact ih.cons₂ (k', v')

theorem keysNodup_removeKey {r : Record} (k : String)
    (h : keysNodup r) : keysNodup (removeKey r k) := by
  exact List.Nodup.sublist ((removeKey_sublist r k).map Prod.fst) h

theorem getKey_removeKey_self {r : Record} (k : String) (h : keysNodup r) :
    getKey (removeKey r k) k = none := by
  induction r with
  | nil => simp [removeKey, getKey]
  | cons kv r ih =>
    obtain ⟨k', v'⟩ := kv
    simp only [keysNodup, List.map_cons, List.nodup_cons] at h
    by_cases h2 : k' = k
    · subst h2
      simpa [removeKey, getKey_eq_none_iff] using h.1
    · simp [removeKey, h2, getKey, ih h.2]

theorem getKey_removeKey_ne (r : Record) {k k' : String} (h : k' ≠ k) :
    getKey (removeKey r k) k' = getKey r k' := by
  induction r with
  | nil => simp [removeKey]
  | cons kv r ih =>
    obtain ⟨k'', v''⟩ := kv
    by_cases h2 : k'' = k
    · subst h2
      simp [removeKey, getKey, Ne.symm h]
    · by_cases h3 : k'' = k'
      · subst h3
        simp [removeKey, h2, getKey]
      · simp [removeKey, h2, getKey, h3, ih]

/-! ## Path lemmas -/

theorem pathKey_slash (s : String) : pathKey ("/" ++ s) = some s := rfl

theorem slash_inj {a b : String} (h : "/" ++ a = "/" ++ b) : a = b := by
  have h2 := congrArg pathKey h
  simpa [pathKey_slash] using h2

theorem slash_ne {a b : String} (h : a ≠ b) : "/" ++ a ≠ "/" ++ b :=
  fun he => h (slash_inj he)

theorem apply_patch_cons (r : Record) (o : Op) (ops : List Op) :
    apply_patch r (o :: ops) = (applyOp r o).bind fun r₁ => apply_patch r₁ ops :=
  rfl

theorem hasKey_setKey_of {r : Record} {k k' : String} {v : Val}
    (h : hasKey r k' = true) : hasKey (setKey r k v) k' = true := by
  rw [hasKey_iff_mem] at h ⊢
  exact mem_keys_setKey.mpr (Or.inr h)

/-- Applying a list of `add` operations and `replace` operations whose
fields already exist never fails. -/
theorem apply_patch_isSome (ops : List Op) :
    ∀ r : Record,
    (∀ o ∈ ops, ∃ k, pathKey o.path = some k ∧
      (o.op = "add" ∨ (o.op = "replace" ∧ hasKey r k))) →
    ∃ r', apply_patch r ops = some r' := by
  induction ops with
  | nil => exact fun r _ => ⟨r, rfl⟩
  | cons o ops ih =>
    intro r h
    obtain ⟨k, hk, hcase⟩ := h o (List.mem_cons_self o ops)
    have step : applyOp r o = some (setKey r k o.value) := by
      rcases hcase with hadd | ⟨hrep, hhas⟩
      · simp [applyOp, hk, hadd]
      · simp [applyOp, hk, hrep, hhas]
    have htail : ∀ o' ∈ ops, ∃ k', pathKey o'.path = some k' ∧
        (o'.op = "add" ∨ (o'.op = "replace" ∧ hasKey (setKey r k o.value) k')) := by
      intro o' ho'
      obtain ⟨k', hk', hc⟩ := h o' (List.mem_cons_of_mem _ ho')
      exact ⟨k', hk', hc.imp id fun ⟨h1, h2⟩ => ⟨h1, hasKey_setKey_of h2⟩⟩
    obtain ⟨r', hr'⟩ := ih (setKey r k o.value) htail
    exact ⟨r', by rw [apply_patch_cons, step]; exact hr'⟩

/-- Full characterization of `apply_patch` when the operations address
pairwise-distinct fields and `replace`/`remove` preconditions hold:
application succeeds, and each field holds its operation's effect,
untouched fields keeping their old value. -/
theorem apply_patch_spec (ops : List Op) :
    ∀ r : Record, keysNodup r →
    (List.filterMap (fun o => pathKey o.path) ops).Nodup →
    (∀ o ∈ ops, ∃ k, pathKey o.path = some k ∧
      (o.op = "add" ∨ ((o.op = "replace" ∨ o.op = "remove") ∧ hasKey r k))) →
    ∃ r', apply_patch r ops = some r' ∧ keysNodup r' ∧
      (∀ k, (∀ o ∈ ops, pathKey o.path ≠ some k) → getKey r' k = getKey r k) ∧
      (∀ o ∈ ops, ∀ k, pathKey o.path = some k → getKey r' k = opEffect o) := by
  induction ops with
  | nil =>
    intro r hr _ _
    exact ⟨r, rfl, hr, fun _ _ => rfl, by simp⟩
  | cons o ops ih =>
    intro r hr hnd h
    obtain ⟨k₀, hk₀, hcase⟩ := h o (List.mem_cons_self o ops)
    have hcons : List.filterMap (fun o => pathKey o.path) (o :: ops)
        = k₀ :: List.filterMap (fun o => pathKey o.path) ops := by
      simp [List.filterMap_cons, hk₀]
    rw [hcons, List.nodup_cons] at hnd
    obtain ⟨hk₀notin, hnd'⟩ := hnd
    have hknotin : ∀ o' ∈ ops, ∀ k', pathKey o'.path = some k' → k' ≠ k₀ := by
      intro o' ho' k' hk' he
      exact hk₀notin (he ▸ List.mem_filterMap.mpr ⟨o', ho', hk'⟩)
    obtain ⟨r₁, step, hnd₁, hsame, heff⟩ :
        ∃ r₁, applyOp r o = some r₁ ∧ keysNodup r₁ ∧
          (∀ k, k ≠ k₀ → getKey r₁ k = getKey r k) ∧
          getKey r₁ k₀ = opEffect o := by
      rcases hcase with hadd | ⟨hrr, hhas⟩
      · refine ⟨setKey r k₀ o.value, by simp [applyOp, hk₀, hadd],
          keysNodup_setKey _ _ hr, fun k hk => getKey_setKey_ne r o.value hk,
          by simp [getKey_setKey_self, opEffect, hadd]⟩
      · rcases hrr with hrep | hrem
        · refine ⟨setKey r k₀ o.value, by simp [applyOp, hk₀, hrep, hhas],
            keysNodup_setKey _ _ hr, fun k hk => getKey_setKey_ne r o.value hk,
            by simp [getKey_setKey_self, opEffect, hrep]⟩
        · refine ⟨removeKey r k₀, by simp [applyOp, hk₀, hrem, hhas],
            keysNodup_removeKey _ hr, fun k hk => getKey_removeKey_ne r hk,
            by simp [getKey_removeKey_self k₀ hr, opEffect, hrem]⟩
    have htail : ∀ o' ∈ ops, ∃ k', pathKey o'.path = some k' ∧
        (o'.op = "add" ∨ ((o'.op = "replace" ∨ o'.op = "remove") ∧ hasKey r₁ k')) := by
      intro o' ho'
      obtain ⟨k', hk', hc⟩ := h o' (List.mem_cons_of_mem _ ho')
      refine ⟨k', hk', hc.imp id fun ⟨h1, h2⟩ => ⟨h1, ?_⟩⟩
      rw [hasKey, hsame k' (hknotin o' ho' k' hk')]
      exact h2
    obtain ⟨r', happ, hnd'', huntouched, heffects⟩ := ih r₁ hnd₁ hnd' htail
    refine ⟨r', ?_, hnd'', ?_, ?_⟩
    · rw [apply_patch_cons, step]
      exact happ
    · intro k hk
      have hne : k ≠ k₀ := fun he =>
        hk o (List.mem_cons_self o ops) (he ▸ hk₀)
      rw [huntouched k fun o' ho' => hk o' (List.mem_cons_of_mem _ ho'),
        hsame k hne]
    · intro o' ho' k hk
      rcases List.mem_cons.mp ho' with he | ho''
      · subst he
        have : k = k₀ := by rw [hk₀] at hk; exact (Option.some_inj.mp hk).symm
        subst this
        rw [huntouched k fun o'' ho'' he => hknotin o'' ho'' k he rfl]
        exact heff
      · exact heffects o' ho'' k hk

/-! ## Diff lemmas -/

theorem diffRemove_eq_some {dirty : Record} {kv : String × Val} {o : Op}
    (h : diffRemove dirty kv = some o) :
    hasKey dirty kv.1 = false ∧ o = ⟨"remove", "/" ++ kv.1, Val.vnull⟩ := by
  rw [diffRemove] at h
  by_cases hh : hasKey dirty kv.1
  · simp [hh] at h
  · simp [hh] at h
    exact ⟨by simpa using hh, h.symm⟩

theorem diffAddReplace_eq_some {clean : Record} {kv : String × Val} {o : Op}
    (h : diffAddReplace clean kv = some o) :
    (getKey clean kv.1 = none ∧ o = ⟨"add", "/" ++ kv.1, kv.2⟩) ∨
      (∃ v0, getKey clean kv.1 = some v0 ∧ v0 ≠ kv.2 ∧
        o = ⟨"replace", "/" ++ kv.1, kv.2⟩) := by
  rw [diffAddReplace] at h
  cases hg : getKey clean kv.1 with
  | none =>
    rw [hg] at h
    simp at h
    exact Or.inl ⟨rfl, h.symm⟩
  | some v0 =>
    rw [hg] at h
    by_cases hv : v0 = kv.2
    · simp [hv] at h
    · simp [hv] at h
      exact Or.inr ⟨v0, rfl, hv, h.symm⟩

theorem keys_diffRemove (clean dirty : Record) :
    List.filterMap (fun o => pathKey o.path) (clean.filterMap (diffRemove dirty))
      = (clean.map Prod.fst).filter fun k => !(hasKey dirty k) := by
  induction clean with
  | nil => rfl
  | cons kv r ih =>
    obtain ⟨k, v⟩ := kv
    by_cases h : hasKey dirty k
    · simp [diffRemove, h, ih]
    · simp [diffRemove, h, ih, pathKey_slash]

theorem keys_diffAddReplace (clean dirty : Record) :
    List.Sublist
      (List.filterMap (fun o => pathKey o.path)
        (dirty.filterMap (diffAddReplace clean)))
      (dirty.map Prod.fst) := by
  induction dirty with
  | nil => simp
  | cons kv r ih =>
    obtain ⟨k, v⟩ := kv
    cases hg : getKey clean k with
    | none =>
      simp only [List.filterMap_cons, diffAddReplace, hg, List.map_cons]
      simpa [pathKey_slash] using ih.cons₂ k
    | some v0 =>
      by_cases hv : v0 = v
      · simp only [List.filterMap_cons, diffAddReplace, hg, if_pos hv, List.map_cons]
        exact ih.trans (List.sublist_cons_self _ _)
      · simp only [List.filterMap_cons, diffAddReplace, hg, if_neg hv, List.map_cons]
        simpa [pathKey_slash] using ih.cons₂ k

/-- Round trip of the patch engine: `apply(diff(A, B), A)` succeeds and
reconstructs `B` field by field. -/
theorem make_patch_apply_roundtrip (A B : Record)
    (hA : keysNodup A) (hB : keysNodup B) :
    ∃ r, apply_patch A (make_patch (some A) B) = some r ∧
      ∀ k, getKey r k = getKey B k := by
  have hmk : make_patch (some A) B
      = A.filterMap (diffRemove B) ++ B.filterMap (diffAddReplace A) := rfl
  have hnd : (List.filterMap (fun o => pathKey o.path) (make_patch (some A) B)).Nodup := by
    rw [hmk, List.filterMap_append]
    refine List.Nodup.append ?_ ?_ ?_
    · rw [keys_diffRemove]
      exact hA.filter _
    · exact hB.sublist (keys_diffAddReplace A B)
    · intro k hk1 hk2
      rw [keys_diffRemove, List.mem_filter] at hk1
      have h2 : k ∈ B.map Prod.fst := (keys_diffAddReplace A B).subset hk2
      rw [← hasKey_iff_mem] at h2
      simp [h2] at hk1
  have hok : ∀ o ∈ make_patch (some A) B, ∃ k, pathKey o.path = some k ∧
      (o.op = "add" ∨ ((o.op = "replace" ∨ o.op = "remove") ∧ hasKey A k)) := by
    intro o ho
    rw [hmk, List.mem_append] at ho
    rcases ho with ho | ho
    · obtain ⟨kv, hkv, hfo⟩ := List.mem_filterMap.mp ho
      obtain ⟨hhk, rfl⟩ := diffRemove_eq_some hfo
      refine ⟨kv.1, pathKey_slash _, Or.inr ⟨Or.inr rfl, ?_⟩⟩
      rw [hasKey_iff_mem]
      exact List.mem_map.mpr ⟨kv, hkv, rfl⟩
    · obtain ⟨kv, hkv, hfo⟩ := List.mem_filterMap.mp ho
      rcases diffAddReplace_eq_some hfo with ⟨hg, rfl⟩ | ⟨v0, hg, hne, rfl⟩
      · exact ⟨kv.1, pathKey_slash _, Or.inl rfl⟩
      · exact ⟨kv.1, pathKey_slash _, Or.inr ⟨Or.inl rfl, by simp [hasKey, hg]⟩⟩
  obtain ⟨r, happ, _, huntouched, heff⟩ :=
    apply_patch_spec (make_patch (some A) B) A hA hnd hok
  refine ⟨r, happ, ?_⟩
  intro k
  cases hBk : getKey B k with
  | some v =>
    cases hAk : getKey A k with
    | none =>
      have hmem : (⟨"add", "/" ++ k, v⟩ : Op) ∈ make_patch (some A) B := by
        rw [hmk, List.mem_append]
        refine Or.inr (List.mem_filterMap.mpr ⟨(k, v), getKey_eq_some_mem hBk, ?_⟩)
        simp [diffAddReplace, hAk]
      rw [heff _ hmem k (pathKey_slash k)]
      simp [opEffect]
    | some v0 =>
      by_cases hv : v0 = v
      · subst hv
        rw [huntouched k ?_, hAk]
        intro o ho hpk
        rw [hmk, List.mem_append] at ho
        rcases ho with ho | ho
        · obtain ⟨⟨k1, v1⟩, hkv, hfo⟩ := List.mem_filterMap.mp ho
          obtain ⟨hhk, rfl⟩ := diffRemove_eq_some hfo
          have hkk : k1 = k := by simpa [pathKey_slash] using hpk
          rw [hkk] at hhk
          simp [hasKey, hBk] at hhk
        · obtain ⟨⟨k1, v1⟩, hkv, hfo⟩ := List.mem_filterMap.mp ho
          rcases diffAddReplace_eq_some hfo with ⟨hg, rfl⟩ | ⟨w0, hg, hne, rfl⟩
          · have hkk : k1 = k := by simpa [pathKey_slash] using hpk
            rw [hkk, hAk] at hg
            exact Option.noConfusion hg
          · have hkk : k1 = k := by simpa [pathKey_slash] using hpk
            subst hkk
            have hv1 : v1 = v0 := by
              have := getKey_of_mem_nodup hB hkv
              rw [hBk] at this
              exact Option.some_inj.mp this.symm
            rw [hAk] at hg
            exact hne (by
              have h1 : v0 = w0 := Option.some_inj.mp hg
              simp [← h1, hv1])
      · have hmem : (⟨"replace", "/" ++ k, v⟩ : Op) ∈ make_patch (some A) B := by
          rw [hmk, List.mem_append]
          refine Or.inr (List.mem_filterMap.mpr ⟨(k, v), getKey_eq_some_mem hBk, ?_⟩)
          simp [diffAddReplace, hAk, hv]
        rw [heff _ hmem k (pathKey_slash k)]
        simp [opEffect]
  | none =>
    cases hAk : getKey A k with
    | some v0 =>
      have hmem : (⟨"remove", "/" ++ k, Val.vnull⟩ : Op) ∈ make_patch (some A) B := by
        rw [hmk, List.mem_append]
        refine Or.inl (List.mem_filterMap.mpr ⟨(k, v0), getKey_eq_some_mem hAk, ?_⟩)
        simp [diffRemove, hasKey, hBk]
      rw [heff _ hmem k (pathKey_slash k)]
      simp [opEffect]
    | none =>
      rw [huntouched k ?_, hAk]
      intro o ho hpk
      rw [hmk, List.mem_append] at ho
      rcases ho with ho | ho
      · obtain ⟨⟨k1, v1⟩, hkv, hfo⟩ := List.mem_filterMap.mp ho
        obtain ⟨hhk, rfl⟩ := diffRemove_eq_some hfo
        have hkk : k1 = k := by simpa [pathKey_slash] using hpk
        subst hkk
        have : k1 ∈ A.map Prod.fst := List.mem_map.mpr ⟨(k1, v1), hkv, rfl⟩
        exact getKey_eq_none_iff.mp hAk this
      · obtain ⟨⟨k1, v1⟩, hkv, hfo⟩ := List.mem_filterMap.mp ho
        have hkk : k1 = k := by
          rcases diffAddReplace_eq_some hfo with ⟨hg, rfl⟩ | ⟨w0, hg, hne, rfl⟩ <;>
            simpa [pathKey_slash] using hpk
        subst hkk
        have : k1 ∈ B.map Prod.fst := List.mem_map.mpr ⟨(k1, v1), hkv, rfl⟩
        exact getKey_eq_none_iff.mp hBk this

/-! ## Requirement-loop lemmas -/

theorem firstOpValue_cons (o : Op) (cs : List Op) (p : String) :
    firstOpValue (o :: cs) p
      = if o.path = p then some o.value else firstOpValue cs p := by
  by_cases hp : o.path = p
  · rw [firstOpValue, List.find?_cons_of_pos _ (by simpa using hp), if_pos hp]
    rfl
  · rw [firstOpValue, List.find?_cons_of_neg _ (by simpa using hp), if_neg hp]
    rfl

theorem firstOpValue_append_left {cs : List Op} (ds : List Op) {p : String}
    (h : p ∈ cs.map Op.path) :
    firstOpValue (cs ++ ds) p = firstOpValue cs p := by
  induction cs with
  | nil => simp at h
  | cons o cs ih =>
    rw [List.cons_append, firstOpValue_cons, firstOpValue_cons]
    by_cases hp : o.path = p
    · simp [hp]
    · rw [if_neg hp, if_neg hp]
      apply ih
      rw [List.map_cons] at h
      rcases List.mem_cons.mp h with he | hm
      · exact absurd he.symm hp
      · exact hm

theorem setFirstValue_none {cs : List Op} {p : String} (v : Val)
    (h : p ∉ cs.map Op.path) : setFirstValue cs p v = none := by
  induction cs with
  | nil => rfl
  | cons o cs ih =>
    have h1 : o.path ≠ p := fun he => h (by simp [he])
    have h2 : p ∉ cs.map Op.path := fun hm => h (by simp [hm])
    simp [setFirstValue, h1, ih h2]

theorem setFirstValue_eq_some_mem {cs cs' : List Op} {p : String} {v : Val}
    (h : setFirstValue cs p v = some cs') : p ∈ cs.map Op.path := by
  by_contra hn
  rw [setFirstValue_none v hn] at h
  exact Option.noConfusion h

theorem setFirstValue_spec (v : Val) (cs : List Op) :
    ∀ p, p ∈ cs.map Op.path →
    ∃ cs', setFirstValue cs p v = some cs' ∧
      cs'.map Op.path = cs.map Op.path ∧
      cs'.map Op.op = cs.map Op.op ∧
      firstOpValue cs' p = some v ∧
      (∀ q, q ≠ p → firstOpValue cs' q = firstOpValue cs q) ∧
      (∀ o ∈ cs, o.path ≠ p → o ∈ cs') := by
  induction cs with
  | nil => intro p h; simp at h
  | cons o cs ih =>
    intro p h
    by_cases hp : o.path = p
    · refine ⟨{ o with value := v } :: cs, by simp [setFirstValue, hp],
        by simp, by simp, ?_, ?_, ?_⟩
      · rw [firstOpValue_cons]
        simp [hp]
      · intro q hq
        rw [firstOpValue_cons, firstOpValue_cons]
        by_cases hoq : o.path = q
        · exact absurd (hoq ▸ hp) hq
        · simp [hoq]
      · intro o' ho' hne
        rcases List.mem_cons.mp ho' with he | hm
        · exact absurd (he ▸ hp) hne
        · exact List.mem_cons_of_mem _ hm
    · have h2 : p ∈ cs.map Op.path := by
        rw [List.map_cons] at h
        rcases List.mem_cons.mp h with he | hm
        · exact absurd he.symm hp
        · exact hm
      obtain ⟨cs', hset, hpaths, hops, hfst, hother, hmem⟩ := ih p h2
      refine ⟨o :: cs', by simp [setFirstValue, hp, hset],
        by simp [hpaths], by simp [hops], ?_, ?_, ?_⟩
      · rw [firstOpValue_cons, if_neg hp]
        exact hfst
      · intro q hq
        rw [firstOpValue_cons, firstOpValue_cons]
        by_cases hoq : o.path = q
        · simp [hoq]
        · rw [if_neg hoq, if_neg hoq]
          exact hother q hq
      · intro o' ho' hne
        rcases List.mem_cons.mp ho' with he | hm
        · exact he ▸ List.mem_cons_self _ _
        · exact List.mem_cons_of_mem _ (hmem o' hm hne)

theorem rewriteStep_eq_some {db : DB} {changes : List Op} {d : CReq}
    {cs₁ : List Op} (h : rewriteStep db changes d = some cs₁) :
    ∃ p cs₀, prereqOf db d = some p ∧
      setFirstValue changes ("/" ++ d.field) (optIdVal p.objectId) = some cs₀ ∧
      cs₁ = cs₀ ++ [versionOp d p] := by
  rw [rewriteStep] at h
  cases hp : prereqOf db d with
  | none => rw [hp] at h; exact Option.noConfusion h
  | some p =>
    rw [hp] at h
    cases hs : setFirstValue changes ("/" ++ d.field) (optIdVal p.objectId) with
    | none => simp [hs] at h
    | some cs₀ =>
      simp [hs] at h
      exact ⟨p, cs₀, rfl, hs, h.symm⟩

theorem rewritePatch_cons (db : DB) (changes : List Op) (d : CReq) (ds : List CReq) :
    rewritePatch db changes (d :: ds)
      = (rewriteStep db changes d).bind fun cs => rewritePatch db cs ds := rfl

/-- Full characterization of the requirement loop when every requirement
has a persisted prerequisite, every requirement's field has an operation
in the original patch, and no requirement's version-field collides with a
requirement's field: the loop succeeds, keeps every original operation's
op and path (in order), appends one version operation per requirement,
and — when the requirements' fields are pairwise distinct — leaves the
first operation at each requirement's field holding that prerequisite's
`object_id`. -/
theorem rewritePatch_spec (db : DB) (deps : List CReq) :
    ∀ changes : List Op,
    (∀ d ∈ deps, (prereqOf db d).isSome) →
    (∀ d ∈ deps, ("/" ++ d.field) ∈ changes.map Op.path) →
    (∀ d ∈ deps, ∀ d' ∈ deps, "/" ++ d.versionField ≠ "/" ++ d'.field) →
    ∃ cs, rewritePatch db changes deps = some cs ∧
      cs.map Op.path = changes.map Op.path
        ++ deps.map (fun d => "/" ++ d.versionField) ∧
      cs.map Op.op = changes.map Op.op ++ deps.map (fun _ => "replace") ∧
      (∀ o ∈ changes, (∀ d ∈ deps, o.path ≠ "/" ++ d.field) → o ∈ cs) ∧
      (∀ d ∈ deps, ∀ p, prereqOf db d = some p → versionOp d p ∈ cs) ∧
      (∀ q, q ∈ changes.map Op.path → (∀ d ∈ deps, q ≠ "/" ++ d.field) →
        firstOpValue cs q = firstOpValue changes q) ∧
      ((deps.map CReq.field).Nodup →
        ∀ d ∈ deps, ∀ p, prereqOf db d = some p →
          firstOpValue cs ("/" ++ d.field) = some (optIdVal p.objectId)) := by
  induction deps with
  | nil =>
    intro changes _ _ _
    exact ⟨changes, rfl, by simp, by simp, fun o ho _ => ho,
      by simp, fun q _ _ => rfl, by simp⟩
  | cons d ds ih =>
    intro changes hfound hmem hcol
    obtain ⟨p, hp⟩ := Option.isSome_iff_exists.mp (hfound d (List.mem_cons_self d ds))
    obtain ⟨cs₀, hset, hpaths₀, hops₀, hfst₀, hother₀, hmem₀⟩ :=
      setFirstValue_spec (optIdVal p.objectId) changes ("/" ++ d.field)
        (hmem d (List.mem_cons_self d ds))
    have hstep : rewriteStep db changes d = some (cs₀ ++ [versionOp d p]) := by
      rw [rewriteStep, hp]
      simp [hset]
    have hpaths₁ : (cs₀ ++ [versionOp d p]).map Op.path
        = changes.map Op.path ++ ["/" ++ d.versionField] := by
      rw [List.map_append, hpaths₀]
      rfl
    have hops₁ : (cs₀ ++ [versionOp d p]).map Op.op
        = changes.map Op.op ++ ["replace"] := by
      rw [List.map_append, hops₀]
      rfl
    obtain ⟨cs, hrw, hpaths, hops, hopres, hvops, hfvpres, hfields⟩ :=
      ih (cs₀ ++ [versionOp d p])
        (fun d' hd' => hfound d' (List.mem_cons_of_mem _ hd'))
        (fun d' hd' => by
          rw [hpaths₁]
          exact List.mem_append_left _ (hmem d' (List.mem_cons_of_mem _ hd')))
        (fun d' hd' d'' hd'' =>
          hcol d' (List.mem_cons_of_mem _ hd') d'' (List.mem_cons_of_mem _ hd''))
    refine ⟨cs, ?_, ?_, ?_, ?_, ?_, ?_, ?_⟩
    · rw [rewritePatch_cons, hstep]
      exact hrw
    · rw [hpaths, hpaths₁, List.append_assoc]
      rfl
    · rw [hops, hops₁, List.append_assoc]
      rfl
    · intro o ho hno
      exact hopres o
        (List.mem_append_left _ (hmem₀ o ho (hno d (List.mem_cons_self d ds))))
        (fun d' hd' => hno d' (List.mem_cons_of_mem _ hd'))
    · intro d' hd' p' hp'
      rcases List.mem_cons.mp hd' with he | hm
      · subst he
        have hpp : p' = p := by
          rw [hp] at hp'
          exact (Option.some_inj.mp hp').symm
        subst hpp
        refine hopres (versionOp d' p')
          (List.mem_append_right _ (List.mem_singleton.mpr rfl)) ?_
        intro d'' hd''
        exact hcol d' (List.mem_cons_self d' ds) d'' (List.mem_cons_of_mem _ hd'')
      · exact hvops d' hm p' hp'
    · intro q hq hno
      rw [hfvpres q (by rw [hpaths₁]; exact List.mem_append_left _ hq)
        (fun d' hd' => hno d' (List.mem_cons_of_mem _ hd'))]
      rw [firstOpValue_append_left _ (by rw [hpaths₀]; exact hq)]
      exact hother₀ q (hno d (List.mem_cons_self d ds))
    · intro hnodup d' hd' p' hp'
      rw [List.map_cons, List.nodup_cons] at hnodup
      rcases List.mem_cons.mp hd' with he | hm
      · subst he
        have hpp : p' = p := by
          rw [hp] at hp'
          exact (Option.some_inj.mp hp').symm
        subst hpp
        rw [hfvpres ("/" ++ d'.field)
          (by rw [hpaths₁]
              exact List.mem_append_left _ (hmem d' (List.mem_cons_self d' ds)))
          (fun d'' hd'' he =>
            hnodup.1 (slash_inj he ▸ List.mem_map.mpr ⟨d'', hd'', rfl⟩))]
        rw [firstOpValue_append_left _
          (by rw [hpaths₀]; exact hmem d' (List.mem_cons_self d' ds))]
        exact hfst₀
      · exact hfields hnodup.2 d' hm p' hp'

/-- When a requirement's field has no operation in the patch (and cannot
pick up a version operation appended for another requirement), the loop
raises `StopIteration`. -/
theorem rewritePatch_fails (db : DB) (deps : List CReq) :
    ∀ changes : List Op,
    (∃ d ∈ deps, ("/" ++ d.field) ∉ changes.map Op.path ∧
      ∀ d' ∈ deps, "/" ++ d.field ≠ "/" ++ d'.versionField) →
    rewritePatch db changes deps = none := by
  induction deps with
  | nil => intro changes h; simp at h
  | cons d ds ih =>
    intro changes ⟨d₀, hd₀, hnot, hnotv⟩
    rw [rewritePatch_cons]
    cases hstep : rewriteStep db changes d with
    | none => rfl
    | some changes₁ =>
      obtain ⟨p, cs₀, hp, hset, he⟩ := rewriteStep_eq_some hstep
      have hd₀ds : d₀ ∈ ds := by
        rcases List.mem_cons.mp hd₀ with h1 | h1
        · subst h1
          exact absurd (setFirstValue_eq_some_mem hset) hnot
        · exact h1
      obtain ⟨cs', hset', hpaths', _, _, _, _⟩ :=
        setFirstValue_spec (optIdVal p.objectId) changes ("/" ++ d.field)
          (setFirstValue_eq_some_mem hset)
      have hcs : cs' = cs₀ := by
        rw [hset] at hset'
        exact (Option.some_inj.mp hset').symm
      subst hcs
      subst he
      have hnotin : ("/" ++ d₀.field) ∉ (cs' ++ [versionOp d p]).map Op.path := by
        rw [List.map_append, hpaths']
        intro hin
        rcases List.mem_append.mp hin with h1 | h1
        · exact hnot h1
        · exact hnotv d (List.mem_cons_self d ds)
            (by simpa [versionOp] using h1)
      exact ih (cs' ++ [versionOp d p])
        ⟨d₀, hd₀ds, hnotin, fun d' hd' => hnotv d' (List.mem_cons_of_mem _ hd')⟩

/-! ## Acceptance lemmas -/

theorem create_object_error_eq {db : DB} {r : CRec} {db' : DB} {e : AcceptError}
    (h : create_object db r = (db', Except.error e)) : db' = db := by
  rw [create_object] at h
  split at h
  · exact (congrArg Prod.fst h).symm
  · split at h
    · exact (congrArg Prod.fst h).symm
    · exact absurd (congrArg Prod.snd h) (by simp)

theorem apply_change_error_eq {db : DB} {r : CRec} {db' : DB} {e : AcceptError}
    (h : apply_change db r = (db', Except.error e)) : db' = db := by
  rw [apply_change] at h
  split at h
  · exact (congrArg Prod.fst h).symm
  · split at h
    · exact (congrArg Prod.fst h).symm
    · split at h
      · exact (congrArg Prod.fst h).symm
      · exact absurd (congrArg Prod.snd h) (by simp)

/-- Every failing `accept` leaves the persisted state untouched: all of
its failure points precede the first save. -/
theorem accept_error_eq {db : DB} {rid : Nat} {force : Bool} {db' : DB}
    {e : AcceptError} (h : accept db rid force = (db', Except.error e)) :
    db' = db := by
  rw [accept] at h
  split at h
  · exact (congrArg Prod.fst h).symm
  · split at h
    · exact (congrArg Prod.fst h).symm
    · split at h
      · exact (congrArg Prod.fst h).symm
      · split at h
        · exact apply_change_error_eq h
        · exact create_object_error_eq h

theorem findReq_eq_some_id {db : DB} {rid : Nat} {r : CRec}
    (h : findReq db rid = some r) : r.id = rid := by
  have := List.find?_some h
  simpa using this

theorem find?_update_id (l : List CRec) (rid : Nat) (r r' : CRec)
    (h : l.find? (fun q => q.id = rid) = some r) (hid : r'.id = r.id) :
    (l.map fun q => if q.id = r.id then r' else q).find?
      (fun q => q.id = rid) = some r' := by
  induction l with
  | nil => simp at h
  | cons a l ih =>
    have hr : r.id = rid := by simpa using List.find?_some h
    by_cases ha : a.id = rid
    · rw [List.find?_cons_of_pos _ (by simpa using ha)] at h
      have he : a = r := Option.some_inj.mp h
      subst he
      rw [List.map_cons, if_pos rfl, List.find?_cons_of_pos _ (by simpa [hid] using ha)]
    · rw [List.find?_cons_of_neg _ (by simpa using ha)] at h
      have hne : ¬(a.id = r.id) := fun he => ha (he.trans hr)
      rw [List.map_cons, if_neg hne, List.find?_cons_of_neg _ (by simpa using ha)]
      exact ih h

theorem hasKey_blankRecord {fields : List String} {k : String}
    (h : k ∈ fields) : hasKey (blankRecord fields) k = true := by
  rw [hasKey_iff_mem, blankRecord]
  simpa using h

theorem prereqAccepted_eq_true {db : DB} {d : CReq}
    (h : prereqAccepted db d = true) :
    ∃ p, prereqOf db d = some p ∧ p.status = ChangeStatus.accepted := by
  rw [prereqAccepted] at h
  cases hp : prereqOf db d with
  | none => rw [hp] at h; simp at h
  | some p =>
    rw [hp] at h
    simp at h
    exact ⟨p, rfl, h⟩

theorem opKeyIn_eq_true {fields : List String} {o : Op}
    (h : opKeyIn fields o = true) :
    ∃ k, pathKey o.path = some k ∧ k ∈ fields := by
  rw [opKeyIn] at h
  cases hp : pathKey o.path with
  | none => rw [hp] at h; simp at h
  | some k =>
    rw [hp] at h
    simp at h
    exact ⟨k, rfl, h⟩

/-- Claim C1: on a Pending creation request (target null) whose
prerequisites are all Accepted — with each requirement owning a patch
operation at its field (requirement fields pairwise distinct,
version-fields not colliding with fields), the patch being a creation
diff (`add` operations over the target type's columns) and the
version-fields being columns of the target type — `accept` rewrites the
patch so that each requirement's field operation holds the
prerequisite's persisted identity and an operation setting the
version-field to the prerequisite's persisted version is appended,
applies the rewritten patch to a freshly instantiated blank record of
the target type, persists it together with its first version, sets the
request's status to Accepted and its target and version to the new
entity and its version, and returns the new entity. -/
theorem accept_creation_spec (db : DB) (rid : Nat) (force : Bool) (r : CRec)
    (hfind : findReq db rid = some r)
    (hp : r.status = ChangeStatus.pending)
    (hc : r.objectId = none)
    (hdeps : ∀ d ∈ dependsOn db rid, prereqAccepted db d = true)
    (hmem : ∀ d ∈ dependsOn db rid, ("/" ++ d.field) ∈ r.changes.map Op.path)
    (hfields : ((dependsOn db rid).map CReq.field).Nodup)
    (hcol : ∀ d ∈ dependsOn db rid, ∀ d' ∈ dependsOn db rid,
      "/" ++ d.versionField ≠ "/" ++ d'.field)
    (hadd : ∀ o ∈ r.changes, o.op = "add")
    (hkeys : ∀ o ∈ r.changes, opKeyIn r.typeFields o = true)
    (hvf : ∀ d ∈ dependsOn db rid, d.versionField ∈ r.typeFields) :
    ∃ db' cs inst,
      accept db rid force = (db', Except.ok db.nextEntityId) ∧
      rewritePatch db r.changes (dependsOn db rid) = some cs ∧
      (∀ d ∈ dependsOn db rid, ∀ p, prereqOf db d = some p →
        firstOpValue cs ("/" ++ d.field) = some (optIdVal p.objectId) ∧
        versionOp d p ∈ cs) ∧
      apply_patch (blankRecord r.typeFields) cs = some inst ∧
      (⟨db.nextEntityId, inst, db.nextVersionId, rid⟩ : Entity) ∈ db'.entities ∧
      (⟨db.nextVersionId, db.nextEntityId, inst⟩ : EVersion) ∈ db'.versions ∧
      findReq db' rid = some { r with
        status := ChangeStatus.accepted
        changes := cs
        objectId := some db.nextEntityId
        versionId := some db.nextVersionId } := by
  have hrid : r.id = rid := findReq_eq_some_id hfind
  subst hrid
  have hfound : ∀ d ∈ dependsOn db r.id, (prereqOf db d).isSome := by
    intro d hd
    obtain ⟨p, hp', _⟩ := prereqAccepted_eq_true (hdeps d hd)
    simp [hp']
  obtain ⟨cs, hrw, hpaths, hops, hopres, hvops, hfvpres, hfvals⟩ :=
    rewritePatch_spec db (dependsOn db r.id) r.changes hfound hmem hcol
  have hok : ∀ o ∈ cs, ∃ k, pathKey o.path = some k ∧
      (o.op = "add" ∨ (o.op = "replace" ∧ hasKey (blankRecord r.typeFields) k)) := by
    intro o ho
    have hkey : ∃ k, pathKey o.path = some k ∧ k ∈ r.typeFields := by
      have hpm : o.path ∈ cs.map Op.path := List.mem_map.mpr ⟨o, ho, rfl⟩
      rw [hpaths] at hpm
      rcases List.mem_append.mp hpm with h1 | h1
      · obtain ⟨o₀, ho₀, he⟩ := List.mem_map.mp h1
        obtain ⟨k, hk1, hk2⟩ := opKeyIn_eq_true (hkeys o₀ ho₀)
        exact ⟨k, he ▸ hk1, hk2⟩
      · obtain ⟨d, hd, he⟩ := List.mem_map.mp h1
        exact ⟨d.versionField, he ▸ pathKey_slash _, hvf d hd⟩
    obtain ⟨k, hk1, hk2⟩ := hkey
    have hop : o.op = "add" ∨ o.op = "replace" := by
      have hpm : o.op ∈ cs.map Op.op := List.mem_map.mpr ⟨o, ho, rfl⟩
      rw [hops] at hpm
      rcases List.mem_append.mp hpm with h1 | h1
      · obtain ⟨o₀, ho₀, he⟩ := List.mem_map.mp h1
        exact Or.inl (he ▸ hadd o₀ ho₀)
      · obtain ⟨d, hd, he⟩ := List.mem_map.mp h1
        exact Or.inr he.symm
    rcases hop with h1 | h1
    · exact ⟨k, hk1, Or.inl h1⟩
    · exact ⟨k, hk1, Or.inr ⟨h1, hasKey_blankRecord hk2⟩⟩
  obtain ⟨inst, happly⟩ := apply_patch_isSome cs (blankRecord r.typeFields) hok
  have hall : (dependsOn db r.id).all (prereqAccepted db) = true :=
    List.all_eq_true.mpr hdeps
  have hacc : accept db r.id force
      = create_object db { r with status := ChangeStatus.accepted } := by
    simp [accept, hfind, hp, hall, hc]
  refine ⟨{ db with
      requests := (db.requests.map fun q =>
        if q.id = r.id then
          { r with
              status := ChangeStatus.accepted,
              changes := cs,
              objectId := some db.nextEntityId,
              versionId := some db.nextVersionId }
        else q),
      entities := db.entities ++ [⟨db.nextEntityId, inst, db.nextVersionId, r.id⟩],
      versions := db.versions ++ [⟨db.nextVersionId, db.nextEntityId, inst⟩],
      nextEntityId := db.nextEntityId + 1,
      nextVersionId := db.nextVersionId + 1 }, cs, inst, ?_, hrw, ?_, happly, ?_, ?_, ?_⟩
  · rw [hacc, create_object]
    simp only [hrw, happly]
  · intro d hd p hp'
    exact ⟨hfvals hfields d hd p hp', hvops d hd p hp'⟩
  · exact List.mem_append_right _ (List.mem_singleton.mpr rfl)
  · exact List.mem_append_right _ (List.mem_singleton.mpr rfl)
  · rw [findReq]
    exact find?_update_id db.requests r.id r _ hfind rfl

/-! ## Content-store lemmas -/

theorem find?_append_none {α : Type} {l₁ l₂ : List α} {p : α → Bool}
    (h : l₁.find? p = none) : (l₁ ++ l₂).find? p = l₂.find? p := by
  induction l₁ with
  | nil => rfl
  | cons a l ih =>
    cases hp : p a with
    | true =>
      rw [List.find?_cons_of_pos _ hp] at h
      exact Option.noConfusion h
    | false =>
      rw [List.find?_cons_of_neg _ (by simp [hp])] at h
      rw [List.cons_append, List.find?_cons_of_neg _ (by simp [hp])]
      exact ih h

theorem map_eq_self_of {α : Type} {l : List α} {f : α → α}
    (h : ∀ a ∈ l, f a = a) : l.map f = l := by
  induction l with
  | nil => rfl
  | cons a l ih =>
    rw [List.map_cons, h a (List.mem_cons_self a l),
      ih fun a ha => h a (List.mem_cons_of_mem _ ha)]

/-- Claim C6: `store_data` called twice with the same
`(source, docId, bytes)` triple, starting from a state with no matching
row, leaves exactly one matching RawData row and exactly one
NormalizationQueue entry; the second call creates no new queue entry,
refreshes the last-seen timestamp (≥ the first call's) and returns the
existing row. -/
theorem store_data_twice (st : RawState) (t1 t2 : Nat) (docId data : String)
    (source : Nat)
    (h0 : ∀ row ∈ st.rows, rawMatches source docId (sha256hex data) row = false)
    (hid : ∀ row ∈ st.rows, row.id ≠ st.nextId)
    (hq : st.nextId ∉ st.queue)
    (ht : t1 ≤ t2) :
    ∃ st1 st2 : RawState,
      store_data st t1 docId data source = (st1, st.nextId) ∧
      store_data st1 t2 docId data source = (st2, st.nextId) ∧
      st2.rows.countP (rawMatches source docId (sha256hex data)) = 1 ∧
      st2.queue = st1.queue ∧
      st1.queue.count st.nextId = 1 ∧
      st2.queue.count st.nextId = 1 ∧
      (∃ row1 ∈ st1.rows, row1.id = st.nextId ∧ row1.dateSeen = t1) ∧
      (∃ row2 ∈ st2.rows, row2.id = st.nextId ∧ row2.dateSeen = t2 ∧
        t1 ≤ row2.dateSeen) := by
  have hfind1 : st.rows.find? (rawMatches source docId (sha256hex data)) = none :=
    List.find?_eq_none.mpr fun row hr => by simp [h0 row hr]
  have hrm : rawMatches source docId (sha256hex data)
      (⟨st.nextId, source, docId, sha256hex data, data, t1, t1⟩ : RawDoc) = true := by
    simp [rawMatches]
  have hfind2 : (st.rows
      ++ [(⟨st.nextId, source, docId, sha256hex data, data, t1, t1⟩ : RawDoc)]).find?
        (rawMatches source docId (sha256hex data))
      = some ⟨st.nextId, source, docId, sha256hex data, data, t1, t1⟩ := by
    rw [find?_append_none hfind1]
    exact List.find?_cons_of_pos _ hrm
  have hqcount : st.queue.count st.nextId = 0 := List.count_eq_zero.mpr hq
  have hstore1 : store_data st t1 docId data source
      = ({ st with
            rows := st.rows
              ++ [⟨st.nextId, source, docId, sha256hex data, data, t1, t1⟩],
            queue := st.queue ++ [st.nextId],
            nextId := st.nextId + 1 }, st.nextId) := by
    rw [store_data, hfind1]
  have hstore2 : store_data { st with
        rows := st.rows
          ++ [⟨st.nextId, source, docId, sha256hex data, data, t1, t1⟩],
        queue := st.queue ++ [st.nextId],
        nextId := st.nextId + 1 } t2 docId data source
      = ({ st with
            rows := st.rows
              ++ [⟨st.nextId, source, docId, sha256hex data, data, t2, t1⟩],
            queue := st.queue ++ [st.nextId],
            nextId := st.nextId + 1 }, st.nextId) := by
    simp only [store_data, hfind2]
    rw [List.map_append, map_eq_self_of fun row hr => if_neg (hid row hr)]
    simp
  refine ⟨_, _, hstore1, hstore2, ?_, rfl, ?_, ?_, ?_, ?_⟩
  · show List.countP (rawMatches source docId (sha256hex data))
      (st.rows ++ [⟨st.nextId, source, docId, sha256hex data, data, t2, t1⟩]) = 1
    rw [List.countP_append, List.countP_eq_zero.mpr fun row hr => by simp [h0 row hr]]
    simp [List.countP_cons, rawMatches]
  · show List.count st.nextId (st.queue ++ [st.nextId]) = 1
    simp [List.count_append, hqcount]
  · show List.count st.nextId (st.queue ++ [st.nextId]) = 1
    simp [List.count_append, hqcount]
  · exact ⟨⟨st.nextId, source, docId, sha256hex data, data, t1, t1⟩,
      List.mem_append_right _ (List.mem_singleton.mpr rfl), rfl, rfl⟩
  · exact ⟨⟨st.nextId, source, docId, sha256hex data, data, t2, t1⟩,
      List.mem_append_right _ (List.mem_singleton.mpr rfl), rfl, rfl, ht⟩

/-! ## Update-path and single-field-diff lemmas -/

theorem filterMap_diffAddReplace_setKey (A : Record) :
    ∀ (k : String) (v0 v : Val), keysNodup A →
    getKey A k = some v0 → v0 ≠ v →
    (setKey A k v).filterMap (diffAddReplace A)
      = [⟨"replace", "/" ++ k, v⟩] := by
  induction A with
  | nil => intro k v0 v _ hget _; simp [getKey] at hget
  | cons kv rest ih =>
    intro k v0 v hnd hget hne
    obtain ⟨k', w⟩ := kv
    simp only [keysNodup, List.map_cons, List.nodup_cons] at hnd
    by_cases hk : k' = k
    · subst hk
      have hw : w = v0 := by simpa [getKey] using hget
      subst hw
      have hset : setKey ((k', w) :: rest) k' v = (k', v) :: rest := by
        simp [setKey]
      have hhead : diffAddReplace ((k', w) :: rest) (k', v)
          = some ⟨"replace", "/" ++ k', v⟩ := by
        simp [diffAddReplace, getKey, hne]
      have htail : rest.filterMap (diffAddReplace ((k', w) :: rest)) = [] := by
        rw [List.filterMap_eq_nil_iff]
        intro kv2 hkv2
        have hki : kv2.1 ≠ k' := fun he =>
          hnd.1 (he ▸ List.mem_map.mpr ⟨kv2, hkv2, rfl⟩)
        have hgk : getKey ((k', w) :: rest) kv2.1 = some kv2.2 := by
          rw [getKey, if_neg (Ne.symm hki)]
          exact getKey_of_mem_nodup hnd.2 hkv2
        simp [diffAddReplace, hgk]
      rw [hset, List.filterMap_cons, hhead, htail]
    · have hset : setKey ((k', w) :: rest) k v = (k', w) :: setKey rest k v := by
        simp [setKey, hk]
      have hhead : diffAddReplace ((k', w) :: rest) (k', w) = none := by
        simp [diffAddReplace, getKey]
      have hget' : getKey rest k = some v0 := by
        rw [getKey, if_neg hk] at hget
        exact hget
      have hcong : ∀ kv2 ∈ setKey rest k v,
          diffAddReplace ((k', w) :: rest) kv2 = diffAddReplace rest kv2 := by
        intro kv2 hkv2
        have hki : kv2.1 ≠ k' := by
          intro he
          have hm : kv2.1 ∈ (setKey rest k v).map Prod.fst :=
            List.mem_map.mpr ⟨kv2, hkv2, rfl⟩
          rcases mem_keys_setKey.mp hm with h1 | h1
          · exact hk (h1.symm.trans he).symm
          · exact hnd.1 (he ▸ h1)
        rw [diffAddReplace, diffAddReplace, getKey, if_neg (Ne.symm hki)]
      rw [hset, List.filterMap_cons, hhead, List.filterMap_congr hcong,
        ih k v0 v hnd.2 hget' hne]

/-- Diff of a record against itself with exactly one field changed:
the patch is exactly one `replace` at that field. -/
theorem make_patch_setKey {A : Record} {k : String} {v0 v : Val}
    (hA : keysNodup A) (hget : getKey A k = some v0) (hne : v0 ≠ v) :
    make_patch (some A) (setKey A k v) = [⟨"replace", "/" ++ k, v⟩] := by
  have h1 : A.filterMap (diffRemove (setKey A k v)) = [] := by
    rw [List.filterMap_eq_nil_iff]
    intro kv hkv
    have hh : hasKey (setKey A k v) kv.1 = true := by
      rw [hasKey_iff_mem]
      exact mem_keys_setKey.mpr (Or.inr (List.mem_map.mpr ⟨kv, hkv, rfl⟩))
    simp [diffRemove, hh]
  show A.filterMap (diffRemove (setKey A k v))
    ++ (setKey A k v).filterMap (diffAddReplace A) = _
  rw [h1, List.nil_append]
  exact filterMap_diffAddReplace_setKey A k v0 v hA hget hne

/-! ## Remaining acceptance helpers -/

theorem accept_invalid_state {db : DB} {rid : Nat} {r : CRec}
    (hfind : findReq db rid = some r) (hns : r.status ≠ ChangeStatus.pending) :
    accept db rid false = (db, Except.error AcceptError.invalidState) := by
  have hcond : ¬((false = true) ∨ r.status = ChangeStatus.pending) := by
    rintro (h | h)
    · exact Bool.noConfusion h
    · exact hns h
  rw [accept, hfind]
  exact if_pos hcond

theorem apply_change_no_invalid (db : DB) (r : CRec) :
    (apply_change db r).2 ≠ Except.error AcceptError.invalidState := by
  rw [apply_change]
  split
  · simp
  · split
    · simp
    · split
      · simp
      · simp

theorem create_object_no_invalid (db : DB) (r : CRec) :
    (create_object db r).2 ≠ Except.error AcceptError.invalidState := by
  rw [create_object]
  split
  · simp
  · split
    · simp
    · simp

theorem accept_force_no_invalid (db : DB) (rid : Nat) :
    (accept db rid true).2 ≠ Except.error AcceptError.invalidState := by
  rw [accept]
  split
  · simp
  · split
    · next h => exact absurd (Or.inl rfl) h
    · split
      · simp
      · split
        · exact apply_change_no_invalid db _
        · exact create_object_no_invalid db _

/-- Claim C2, amended: `accept` on a request with an unmet
ChangeRequirement always fails and leaves the state unchanged, for every
value of `force`; the failure is UnsatisfiedDependencyError whenever the
request is Pending or `force` is set (otherwise the status precondition
fails first, with InvalidStateError). -/
theorem accept_unmet_dep (db : DB) (rid : Nat) (force : Bool) (r : CRec)
    (hfind : findReq db rid = some r)
    (hunmet : ∃ d ∈ dependsOn db rid, prereqAccepted db d = false) :
    (∃ e, accept db rid force = (db, Except.error e)) ∧
    ((force = true ∨ r.status = ChangeStatus.pending) →
      accept db rid force = (db, Except.error AcceptError.unsatisfiedDependency)) := by
  obtain ⟨d, hd, hfalse⟩ := hunmet
  have hnall : ¬(dependsOn db rid).all (prereqAccepted db) = true := by
    intro hall
    have h := List.all_eq_true.mp hall d hd
    rw [hfalse] at h
    exact Bool.noConfusion h
  by_cases hcond : (force = true ∨ r.status = ChangeStatus.pending)
  · have hacc : accept db rid force
        = (db, Except.error AcceptError.unsatisfiedDependency) := by
      rw [accept, hfind]
      exact (if_neg (not_not_intro hcond)).trans (if_pos hnall)
    exact ⟨⟨_, hacc⟩, fun _ => hacc⟩
  · have hacc : accept db rid force
        = (db, Except.error AcceptError.invalidState) := by
      rw [accept, hfind]
      exact if_pos hcond
    exact ⟨⟨_, hacc⟩, fun h => absurd h hcond⟩

theorem update_object_eq {db : DB} {uid : Nat} {newFields : Record}
    {clean : Entity} (hfind : findEntity db uid = some clean) :
    update_object db uid newFields = some (db,
      { status := ChangeStatus.pending
        changes := make_patch (some clean.fields) newFields
        objectId := some clean.id
        versionId := some clean.versionId }) := by
  rw [update_object, hfind]

/-- Claim C10: on the creation path with all prerequisites Accepted,
every ChangeRequirement must have a patch operation at `'/' + field`:
a requirement with no such operation (and whose field-path cannot be
satisfied by a version operation appended for a requirement) makes
`accept` raise — the substitution loop fails rather than skipping the
requirement, and nothing is persisted. -/
theorem accept_missing_field_error (db : DB) (rid : Nat) (force : Bool) (r : CRec)
    (hfind : findReq db rid = some r)
    (hp : r.status = ChangeStatus.pending)
    (hc : r.objectId = none)
    (hdeps : ∀ d ∈ dependsOn db rid, prereqAccepted db d = true)
    (hmiss : ∃ d ∈ dependsOn db rid, ("/" ++ d.field) ∉ r.changes.map Op.path ∧
      ∀ d' ∈ dependsOn db rid, "/" ++ d.field ≠ "/" ++ d'.versionField) :
    accept db rid force = (db, Except.error AcceptError.missingFieldOp) := by
  have hrid := findReq_eq_some_id hfind
  subst hrid
  have hall : (dependsOn db r.id).all (prereqAccepted db) = true :=
    List.all_eq_true.mpr hdeps
  have hacc : accept db r.id force
      = create_object db { r with status := ChangeStatus.accepted } := by
    simp [accept, hfind, hp, hall, hc]
  have hrpn : rewritePatch db r.changes (dependsOn db r.id) = none :=
    rewritePatch_fails db (dependsOn db r.id) r.changes hmiss
  rw [hacc, create_object]
  simp only [hrpn]

deriving instance DecidableEq for Except

theorem accept_creation_spec_witness :
    findReq exDB 2 = some exReqR ∧
    exReqR.status = ChangeStatus.pending ∧
    exReqR.objectId = none ∧
    (∀ d ∈ dependsOn exDB 2, prereqAccepted exDB d = true) ∧
    (∃ db' cs inst,
      accept exDB 2 false = (db', Except.ok exDB.nextEntityId) ∧
      rewritePatch exDB exReqR.changes (dependsOn exDB 2) = some cs ∧
      (∀ d ∈ dependsOn exDB 2, ∀ p, prereqOf exDB d = some p →
        firstOpValue cs ("/" ++ d.field) = some (optIdVal p.objectId) ∧
        versionOp d p ∈ cs) ∧
      apply_patch (blankRecord exReqR.typeFields) cs = some inst ∧
      (⟨exDB.nextEntityId, inst, exDB.nextVersionId, 2⟩ : Entity) ∈ db'.entities ∧
      (⟨exDB.nextVersionId, exDB.nextEntityId, inst⟩ : EVersion) ∈ db'.versions ∧
      findReq db' 2 = some { exReqR with
        status := ChangeStatus.accepted
        changes := cs
        objectId := some exDB.nextEntityId
        versionId := some exDB.nextVersionId }) :=
  ⟨by decide, by decide, by decide, by decide,
   accept_creation_spec exDB 2 false exReqR (by decide) (by decide) (by decide)
     (by decide) (by decide) (by decide) (by decide) (by decide) (by decide)
     (by decide)⟩

/-- Claim C4: on the creation path every failure of `accept` (unsatisfied
dependency, missing field operation, patch application error) leaves the
persisted state exactly as it was: the request is still Pending with its
original patch, and no entity or entity version has been created. -/
theorem accept_creation_failure_atomic (db : DB) (rid : Nat) (force : Bool)
    (r : CRec) (db' : DB) (e : AcceptError)
    (hfind : findReq db rid = some r)
    (hp : r.status = ChangeStatus.pending)
    (_hc : r.objectId = none)
    (he : accept db rid force = (db', Except.error e)) :
    db' = db ∧ findReq db' rid = some r ∧ r.status = ChangeStatus.pending ∧
    db'.entities = db.entities ∧ db'.versions = db.versions := by
  have hdb := accept_error_eq he
  subst hdb
  exact ⟨rfl, hfind, hp, rfl, rfl⟩

/-- Witness for C4: a failing accept (requirement without a matching
operation) leaves the concrete database untouched. -/
theorem accept_creation_failure_atomic_witness :
    accept exDBmiss 2 false = (exDBmiss, Except.error AcceptError.missingFieldOp) ∧
    (exDBmiss = exDBmiss ∧ findReq exDBmiss 2 = some exReqRmiss ∧
      exReqRmiss.status = ChangeStatus.pending ∧
      exDBmiss.entities = exDBmiss.entities ∧
      exDBmiss.versions = exDBmiss.versions) :=
  ⟨by decide,
   accept_creation_failure_atomic exDBmiss 2 false exReqRmiss exDBmiss
     AcceptError.missingFieldOp (by decide) (by decide) (by decide) (by decide)⟩

/-- Witness for C10 at the concrete scenario: the requirement's field has
no operation in the patch, so accepting raises instead of skipping. -/
theorem accept_missing_field_error_witness :
    (∃ d ∈ dependsOn exDBmiss 2,
      ("/" ++ d.field) ∉ exReqRmiss.changes.map Op.path ∧
      ∀ d' ∈ dependsOn exDBmiss 2, "/" ++ d.field ≠ "/" ++ d'.versionField) ∧
    accept exDBmiss 2 false = (exDBmiss, Except.error AcceptError.missingFieldOp) :=
  ⟨by decide,
   accept_missing_field_error exDBmiss 2 false exReqRmiss (by decide) (by decide)
     (by decide) (by decide) (by decide)⟩

/-- Claim C2 counterexample: a non-Pending request with an unmet
requirement, accepted without `force`, fails with InvalidStateError —
not UnsatisfiedDependencyError as the claim states for every request and
every `force` value.  (The status assert runs first.) -/
theorem accept_unmet_invalid_counterexample :
    (∃ d ∈ dependsOn exDBdone 2, prereqAccepted exDBdone d = false) ∧
    accept exDBdone 2 false = (exDBdone, Except.error AcceptError.invalidState) ∧
    AcceptError.invalidState ≠ AcceptError.unsatisfiedDependency := by decide

/-- Witness for the amended C2 at a concrete unmet dependency with
`force = true`: the failure is UnsatisfiedDependencyError. -/
theorem accept_unmet_dep_witness :
    (∃ d ∈ dependsOn exDBpending 2, prereqAccepted exDBpending d = false) ∧
    ((∃ e, accept exDBpending 2 true = (exDBpending, Except.error e)) ∧
     ((true = true ∨ exReqR.status = ChangeStatus.pending) →
       accept exDBpending 2 true
         = (exDBpending, Except.error AcceptError.unsatisfiedDependency))) :=
  ⟨by decide, accept_unmet_dep exDBpending 2 true exReqR (by decide) (by decide)⟩

/-- Claim C3 counterexample: `reject` has no precondition — called on an
Accepted (terminal) request it still transitions it to Rejected. -/
theorem reject_terminal_counterexample :
    exAcceptedReq.status = ChangeStatus.accepted ∧
    (reject exAcceptedReq).status = ChangeStatus.rejected ∧
    ChangeStatus.rejected ≠ ChangeStatus.accepted := by decide

/-- Claim C3, amended: requests are created Pending (`update_object`
returns a Pending request); `reject` unconditionally sets any request's
status to Rejected; and `accept` without `force` refuses every
non-Pending request with InvalidStateError, leaving the state unchanged —
so without `force`, `accept` never leaves a terminal state. -/
theorem status_machine_spec :
    (∀ (db : DB) (uid : Nat) (fields : Record) (db' : DB) (nr : NewCRec),
      update_object db uid fields = some (db', nr) →
      nr.status = ChangeStatus.pending) ∧
    (∀ r : CRec, (reject r).status = ChangeStatus.rejected) ∧
    (∀ (db : DB) (rid : Nat) (r : CRec), findReq db rid = some r →
      r.status ≠ ChangeStatus.pending →
      accept db rid false = (db, Except.error AcceptError.invalidState)) := by
  refine ⟨?_, fun r => rfl, fun db rid r hf hns => accept_invalid_state hf hns⟩
  intro db uid fields db' nr h
  rw [update_object] at h
  cases hfe : findEntity db uid with
  | none => rw [hfe] at h; exact Option.noConfusion h
  | some clean =>
    rw [hfe] at h
    have h2 := congrArg Prod.snd (Option.some_inj.mp h)
    simp only [Prod.snd] at h2
    rw [← h2]

/-- Witness for the amended C3 at concrete requests. -/
theorem status_machine_spec_witness :
    (update_object exDBupd 1 [("name", Val.vstr "y"), ("uri", Val.vstr "u")]
      = some (exDBupd,
        ⟨ChangeStatus.pending, [⟨"replace", "/name", Val.vstr "y"⟩],
          some 1, some 5⟩)) ∧
    (⟨ChangeStatus.pending, [⟨"replace", "/name", Val.vstr "y"⟩],
      some 1, some 5⟩ : NewCRec).status = ChangeStatus.pending ∧
    (reject exAcceptedReq).status = ChangeStatus.rejected ∧
    accept exDBdone 2 false = (exDBdone, Except.error AcceptError.invalidState) :=
  ⟨by decide,
   status_machine_spec.1 exDBupd 1 [("name", Val.vstr "y"), ("uri", Val.vstr "u")]
     exDBupd _ (by decide),
   status_machine_spec.2.1 exAcceptedReq,
   status_machine_spec.2.2 exDBdone 2 ⟨2, ChangeStatus.accepted, [], none, none, []⟩
     (by decide) (by decide)⟩

/-- Claim C5: patch round trip — applying `make_patch(None, X)` to an empty
record reconstructs `X`'s editable fields, and applying
`make_patch(A, B)` to `A` reconstructs `B`'s editable fields, field by
field. -/
theorem patch_roundtrip (A B : Record) (hA : keysNodup A) (hB : keysNodup B) :
    (∃ r, apply_patch [] (make_patch none B) = some r ∧
      ∀ k, getKey r k = getKey B k) ∧
    (∃ r, apply_patch A (make_patch (some A) B) = some r ∧
      ∀ k, getKey r k = getKey B k) :=
  ⟨make_patch_apply_roundtrip [] B (by simp [keysNodup]) hB,
   make_patch_apply_roundtrip A B hA hB⟩

/-- Witness for C5 at two concrete records. -/
theorem patch_roundtrip_witness :
    keysNodup exRecA ∧ keysNodup exRecB ∧
    ((∃ r, apply_patch [] (make_patch none exRecB) = some r ∧
      ∀ k, getKey r k = getKey exRecB k) ∧
     (∃ r, apply_patch exRecA (make_patch (some exRecA) exRecB) = some r ∧
      ∀ k, getKey r k = getKey exRecB k)) :=
  ⟨by decide, by decide, patch_roundtrip exRecA exRecB (by decide) (by decide)⟩

/-- Witness for C6: storing `("doc1", "hello", source 7)` twice in the
empty store leaves one matching row, one queue entry, and a refreshed
timestamp. -/
theorem store_data_twice_witness :
    (∀ row ∈ exRaw.rows, rawMatches 7 "doc1" (sha256hex "hello") row = false) ∧
    3 ≤ 9 ∧
    (∃ st1 st2 : RawState,
      store_data exRaw 3 "doc1" "hello" 7 = (st1, exRaw.nextId) ∧
      store_data st1 9 "doc1" "hello" 7 = (st2, exRaw.nextId) ∧
      st2.rows.countP (rawMatches 7 "doc1" (sha256hex "hello")) = 1 ∧
      st2.queue = st1.queue ∧
      st1.queue.count exRaw.nextId = 1 ∧
      st2.queue.count exRaw.nextId = 1 ∧
      (∃ row1 ∈ st1.rows, row1.id = exRaw.nextId ∧ row1.dateSeen = 3) ∧
      (∃ row2 ∈ st2.rows, row2.id = exRaw.nextId ∧ row2.dateSeen = 9 ∧
        3 ≤ row2.dateSeen)) :=
  ⟨by decide, by decide,
   store_data_twice exRaw 3 9 "doc1" "hello" 7 (by decide) (by decide)
     (by decide) (by decide)⟩

/-- Claim C7 counterexample: `update_object` constructs and returns the new
ChangeRequest but never saves it — the returned database still has an
empty request table, so nothing was persisted. -/
theorem update_object_no_persist_counterexample :
    update_object exDBupd 1 [("name", Val.vstr "y"), ("uri", Val.vstr "u")]
      = some (exDBupd,
        ⟨ChangeStatus.pending, [⟨"replace", "/name", Val.vstr "y"⟩],
          some 1, some 5⟩) ∧
    exDBupd.requests = [] := by decide

/-- Claim C7, amended: for an existing entity, `update_object` returns —
without saving it — a new ChangeRequest carrying status Pending, target
the existing entity, version the committed snapshot's version and patch
`diff(snapshot, draft)`; when exactly one field changed the patch is
exactly one `replace` at that field. -/
theorem update_object_spec (db : DB) (uid : Nat) (newFields : Record)
    (clean : Entity) (hfind : findEntity db uid = some clean) :
    update_object db uid newFields = some (db,
      { status := ChangeStatus.pending
        changes := make_patch (some clean.fields) newFields
        objectId := some clean.id
        versionId := some clean.versionId }) ∧
    (∀ k v0 v, keysNodup clean.fields → getKey clean.fields k = some v0 →
      v0 ≠ v → newFields = setKey clean.fields k v →
      make_patch (some clean.fields) newFields
        = [⟨"replace", "/" ++ k, v⟩]) := by
  refine ⟨update_object_eq hfind, ?_⟩
  intro k v0 v hnd hget hne hnf
  subst hnf
  exact make_patch_setKey hnd hget hne

/-- Witness for the amended C7 at Scenario 3 (only `name` changed). -/
theorem update_object_spec_witness :
    (update_object exDBupd 1 (setKey exEntity.fields "name" (Val.vstr "y"))
      = some (exDBupd,
        { status := ChangeStatus.pending
          changes := make_patch (some exEntity.fields)
            (setKey exEntity.fields "name" (Val.vstr "y"))
          objectId := some exEntity.id
          versionId := some exEntity.versionId })) ∧
    make_patch (some exEntity.fields) (setKey exEntity.fields "name" (Val.vstr "y"))
      = [⟨"replace", "/name", Val.vstr "y"⟩] :=
  ⟨(update_object_spec exDBupd 1 _ exEntity (by decide)).1,
   (update_object_spec exDBupd 1 _ exEntity (by decide)).2 "name" (Val.vstr "x")
     (Val.vstr "y") (by decide) (by decide) (by decide) rfl⟩

/-- Claim C8: a non-Pending request accepted without `force` fails with
InvalidStateError and the state is unchanged; with `force = true` the
status precondition is bypassed — `accept` can never fail with
InvalidStateError. -/
theorem accept_force_spec :
    (∀ (db : DB) (rid : Nat) (r : CRec), findReq db rid = some r →
      r.status ≠ ChangeStatus.pending →
      accept db rid false = (db, Except.error AcceptError.invalidState)) ∧
    (∀ (db : DB) (rid : Nat),
      (accept db rid true).2 ≠ Except.error AcceptError.invalidState) :=
  ⟨fun _ _ _ hf hns => accept_invalid_state hf hns,
   fun db rid => accept_force_no_invalid db rid⟩

/-- Witness for C8 at a concrete non-Pending request. -/
theorem accept_force_spec_witness :
    accept exDBdone 2 false = (exDBdone, Except.error AcceptError.invalidState) ∧
    (accept exDBdone 2 true).2 ≠ Except.error AcceptError.invalidState :=
  ⟨accept_force_spec.1 exDBdone 2 ⟨2, ChangeStatus.accepted, [], none, none, []⟩
     (by decide) (by decide),
   accept_force_spec.2 exDBdone 2⟩

/-- Claim C9: saving a `ThroughContributor` raises ValidationError and
persists nothing when the endpoints' creative works differ or their
agents coincide; with shared creative work and distinct agents the save
succeeds and appends exactly the new row. -/
theorem tc_validation :
    (∀ (t : ThroughContributor) (store : List ThroughContributor),
      t.subject.creativeWork ≠ t.related.creativeWork ∨
        t.subject.agent = t.related.agent →
      ∃ e, tcSave t store = Except.error e) ∧
    (∀ (t : ThroughContributor) (store : List ThroughContributor),
      t.subject.creativeWork = t.related.creativeWork →
      t.subject.agent ≠ t.related.agent →
      tcSave t store = Except.ok (store ++ [t])) := by
  constructor
  · intro t store h
    rcases h with h | h
    · have hc : tcClean t
          = Except.error "ThroughContributors must contribute to the same AbstractCreativeWork" := by
        rw [tcClean, if_pos h]
      rw [tcSave, hc]
      exact ⟨_, rfl⟩
    · by_cases h2 : t.subject.creativeWork ≠ t.related.creativeWork
      · have hc : tcClean t
            = Except.error "ThroughContributors must contribute to the same AbstractCreativeWork" := by
          rw [tcClean, if_pos h2]
        rw [tcSave, hc]
        exact ⟨_, rfl⟩
      · have hc : tcClean t
            = Except.error "A contributor may not contribute through itself" := by
          rw [tcClean, if_neg h2, if_pos h]
        rw [tcSave, hc]
        exact ⟨_, rfl⟩
  · intro t store h1 h2
    have hc : tcClean t = Except.ok () := by
      rw [tcClean, if_neg (fun hne => hne h1), if_neg h2]
    rw [tcSave, hc]

/-- Witness for C9: mismatched creative works fail, a self-contribution
fails, and a well-formed ThroughContributor saves. -/
theorem tc_validation_witness :
    (∃ e, tcSave ⟨exAwrA, exAwrC⟩ [] = Except.error e) ∧
    (∃ e, tcSave ⟨exAwrA, ⟨4, 5, 8⟩⟩ [] = Except.error e) ∧
    tcSave ⟨exAwrA, exAwrB⟩ [] = Except.ok [⟨exAwrA, exAwrB⟩] :=
  ⟨tc_validation.1 ⟨exAwrA, exAwrC⟩ [] (Or.inl (by decide)),
   tc_validation.1 ⟨exAwrA, ⟨4, 5, 8⟩⟩ [] (Or.inr (by decide)),
   tc_validation.2 ⟨exAwrA, exAwrB⟩ [] (by decide) (by decide)⟩

end Share


